import Mathlib

/-!
Verification of the book-cipher codec of this repository.

The engine lives in two generations of the cipher service (both present in
the sources): the Line-Word / Ottendorf variant (modelled in namespace `LW`
below) and the current Paragraph-Line-Word / Date-Paragraph-Line-Word
variant with accent-insensitive keying (modelled at top level).

Strings are modelled as lists of Unicode characters (`Str`).  The JavaScript
string primitives used by the code (`trim`, `split`, `toLowerCase`,
`toUpperCase`, `normalize("NFD")`, `parseInt`, regex character classes) are
given executable models below.  The NFD decomposition table and the case
maps cover ASCII and the Latin-1 letter block, which is the character range
the regex classes of the source single out; characters outside that range
decompose to themselves.
-/

abbrev Str := List Char

def str (s : String) : Str := s.toList

/-- JavaScript whitespace class `\s`, restricted to the common code points. -/
def isSpace (c : Char) : Bool :=
  decide (c = ' ' ∨ c = '\t' ∨ c = '\n' ∨ c = '\r' ∨ c = '\u000b' ∨ c = '\u000c' ∨ c = ' ')

def isDigitCh (c : Char) : Bool :=
  decide (48 ≤ c.toNat ∧ c.toNat ≤ 57)

/-- Characters kept by `replace(/[^\wÀ-ÿ]/g, '')`: `\w` plus the Latin-1 range. -/
def isWordCharExt (c : Char) : Bool :=
  decide ((65 ≤ c.toNat ∧ c.toNat ≤ 90) ∨ (97 ≤ c.toNat ∧ c.toNat ≤ 122) ∨
    (48 ≤ c.toNat ∧ c.toNat ≤ 57) ∨ c.toNat = 95 ∨ (192 ≤ c.toNat ∧ c.toNat ≤ 255))

/-- Characters kept by the boundary cleanup class `[a-zA-ZÀ-ÿ0-9]`. -/
def isKeepDisplay (c : Char) : Bool :=
  decide ((65 ≤ c.toNat ∧ c.toNat ≤ 90) ∨ (97 ≤ c.toNat ∧ c.toNat ≤ 122) ∨
    (48 ≤ c.toNat ∧ c.toNat ≤ 57) ∨ (192 ≤ c.toNat ∧ c.toNat ≤ 255))

/-- Characters kept by the key class `[a-z0-9]`. -/
def isLowerAlnum (c : Char) : Bool :=
  decide ((97 ≤ c.toNat ∧ c.toNat ≤ 122) ∨ (48 ≤ c.toNat ∧ c.toNat ≤ 57))

/-- Combining diacritical marks `[̀-ͯ]`. -/
def isCombining (c : Char) : Bool :=
  decide (768 ≤ c.toNat ∧ c.toNat ≤ 879)

/-- Ottendorf encode class `[a-z0-9À-ÿ]` (checked after lower-casing). -/
def isOttChar (c : Char) : Bool :=
  decide ((97 ≤ c.toNat ∧ c.toNat ≤ 122) ∨ (48 ≤ c.toNat ∧ c.toNat ≤ 57) ∨
    (192 ≤ c.toNat ∧ c.toNat ≤ 255))

def concatMap (f : α → List β) : List α → List β
  | [] => []
  | x :: xs => f x ++ concatMap f xs

/-- Model of `s.trim()`. -/
def jsTrim (s : Str) : Str :=
  ((s.dropWhile isSpace).reverse.dropWhile isSpace).reverse

def consHead (c : Char) : List Str → List Str
  | [] => [[c]]
  | p :: ps => (c :: p) :: ps

/-- Model of `s.split(/\s+/)`: pieces between maximal whitespace runs; a leading or
trailing run contributes an empty piece, and the empty string yields one
empty piece, exactly as in JavaScript. -/
def splitWs : Str → List Str
  | [] => [[]]
  | c :: rest =>
    if isSpace c then
      match rest with
      | [] => [[], []]
      | d :: _ => if isSpace d then splitWs rest else [] :: splitWs rest
    else consHead c (splitWs rest)

/-- Model of `s.split(sep)` for a single-character separator. -/
def splitOn (sep : Char) : Str → List Str
  | [] => [[]]
  | c :: rest =>
    if c = sep then [] :: splitOn sep rest
    else consHead c (splitOn sep rest)

/-- Model of `s.split(/\r?\n/)`: a line feed always terminates a line and consumes one
carriage return immediately before it; a lone carriage return is an ordinary
character. -/
def splitLines : Str → List Str
  | [] => [[]]
  | [c] => if c = '\n' then [[], []] else [[c]]
  | c :: d :: rest =>
    if c = '\n' then [] :: splitLines (d :: rest)
    else if c = '\r' ∧ d = '\n' then [] :: splitLines rest
    else consHead c (splitLines (d :: rest))

/-- Greedy leftmost match of the paragraph separator `/\n\s*\n/` at the head
of the string: a line feed, then the longest whitespace run that still leaves
a final line feed.  Returns the remainder after the matched separator. -/
def sepMatch : Str → Option Str
  | [] => none
  | c :: rest =>
    if c = '\n' then
      if (rest.takeWhile isSpace).any (fun b => b == '\n') then
        some (((rest.takeWhile isSpace).reverse.takeWhile (fun b => b != '\n')).reverse ++
          rest.dropWhile isSpace)
      else none
    else none

/-- Paragraph scan for `text.split(/\n\s*\n/)`, running on fuel so that the
definition is structurally recursive (the fuel is the string length, which
strictly exceeds the number of characters the scan can consume). -/
def paraGoF : Nat → Str → List Str
  | 0, _ => [[]]
  | _ + 1, [] => [[]]
  | fuel + 1, c :: rest =>
    match sepMatch (c :: rest) with
    | some rem => [] :: paraGoF fuel rem
    | none => consHead c (paraGoF fuel rest)

/-- Model of `text.split(/\n\s*\n/)`. -/
def paraSplit (s : Str) : List Str := paraGoF s.length s

/-- Model of `[x0, x1, ...].join(sep)`. -/
def joinSep (sep : Str) : List Str → Str
  | [] => []
  | [p] => p
  | p :: ps => p ++ sep ++ joinSep sep ps

def digitChar : Nat → Char
  | 0 => '0'
  | 1 => '1'
  | 2 => '2'
  | 3 => '3'
  | 4 => '4'
  | 5 => '5'
  | 6 => '6'
  | 7 => '7'
  | 8 => '8'
  | _ => '9'

/-- Decimal digits of a positive number, least significant first, on fuel. -/
def natToRevF : Nat → Nat → Str
  | 0, _ => []
  | _, 0 => []
  | fuel + 1, n + 1 => digitChar ((n + 1) % 10) :: natToRevF fuel ((n + 1) / 10)

/-- Decimal rendering of a number, as template-literal interpolation does. -/
def natToStr (n : Nat) : Str := if n = 0 then ['0'] else (natToRevF n n).reverse

def digitsVal (s : Str) : Nat := s.foldl (fun a c => a * 10 + (c.toNat - 48)) 0

def parseDigits (s : Str) : Option Nat :=
  let ds := s.takeWhile isDigitCh
  if ds = [] then none else some (digitsVal ds)

/-- Model of `parseInt(s, 10)`: skip leading whitespace, optional sign, then the
longest digit prefix; `none` models `NaN`. -/
def jsParseInt (s : Str) : Option Int :=
  match s.dropWhile isSpace with
  | '-' :: rest => (parseDigits rest).map (fun n => -(n : Int))
  | '+' :: rest => (parseDigits rest).map (fun n => (n : Int))
  | s1 => (parseDigits s1).map (fun n => (n : Int))

/-- Canonical decomposition (NFD) of one character, for the Latin-1 letter
block; other characters decompose to themselves. -/
def nfdChar : Char → Str
  | 'À' => ['A', '̀']
  | 'Á' => ['A', '́']
  | 'Â' => ['A', '̂']
  | 'Ã' => ['A', '̃']
  | 'Ä' => ['A', '̈']
  | 'Å' => ['A', '̊']
  | 'Ç' => ['C', '̧']
  | 'È' => ['E', '̀']
  | 'É' => ['E', '́']
  | 'Ê' => ['E', '̂']
  | 'Ë' => ['E', '̈']
  | 'Ì' => ['I', '̀']
  | 'Í' => ['I', '́']
  | 'Î' => ['I', '̂']
  | 'Ï' => ['I', '̈']
  | 'Ñ' => ['N', '̃']
  | 'Ò' => ['O', '̀']
  | 'Ó' => ['O', '́']
  | 'Ô' => ['O', '̂']
  | 'Õ' => ['O', '̃']
  | 'Ö' => ['O', '̈']
  | 'Ù' => ['U', '̀']
  | 'Ú' => ['U', '́']
  | 'Û' => ['U', '̂']
  | 'Ü' => ['U', '̈']
  | 'Ý' => ['Y', '́']
  | 'à' => ['a', '̀']
  | 'á' => ['a', '́']
  | 'â' => ['a', '̂']
  | 'ã' => ['a', '̃']
  | 'ä' => ['a', '̈']
  | 'å' => ['a', '̊']
  | 'ç' => ['c', '̧']
  | 'è' => ['e', '̀']
  | 'é' => ['e', '́']
  | 'ê' => ['e', '̂']
  | 'ë' => ['e', '̈']
  | 'ì' => ['i', '̀']
  | 'í' => ['i', '́']
  | 'î' => ['i', '̂']
  | 'ï' => ['i', '̈']
  | 'ñ' => ['n', '̃']
  | 'ò' => ['o', '̀']
  | 'ó' => ['o', '́']
  | 'ô' => ['o', '̂']
  | 'õ' => ['o', '̃']
  | 'ö' => ['o', '̈']
  | 'ù' => ['u', '̀']
  | 'ú' => ['u', '́']
  | 'û' => ['u', '̂']
  | 'ü' => ['u', '̈']
  | 'ý' => ['y', '́']
  | 'ÿ' => ['y', '̈']
  | 'Ÿ' => ['Y', '̈']
  | c => [c]

/-- Model of `toLowerCase` on one character (ASCII and Latin-1). -/
def toLowerChar (c : Char) : Char :=
  if ('A' ≤ c ∧ c ≤ 'Z') ∨ (('À' ≤ c ∧ c ≤ 'Þ') ∧ c ≠ '×') then Char.ofNat (c.toNat + 32)
  else if c = 'Ÿ' then 'ÿ'
  else c

/-- Model of `toUpperCase` on one character (ASCII and Latin-1); ß expands to SS and
ÿ maps out of the Latin-1 block, as in JavaScript. -/
def upperChar (c : Char) : Str :=
  if c = 'ß' then ['S', 'S']
  else if c = 'ÿ' then ['Ÿ']
  else if c = 'µ' then ['Μ']
  else if ('a' ≤ c ∧ c ≤ 'z') ∨ (('à' ≤ c ∧ c ≤ 'þ') ∧ c ≠ '÷') then [Char.ofNat (c.toNat - 32)]
  else [c]

def nfd (s : Str) : Str := concatMap nfdChar s

def jsToLower (s : Str) : Str := s.map toLowerChar

def jsToUpper (s : Str) : Str := concatMap upperChar s

/-- Key normalization `normalizeKey` of the accent-insensitive cipher service: NFD, strip the
combining marks, lower-case, then keep only `[a-z0-9]`. -/
def normalizeKey (s : Str) : Str :=
  (jsToLower ((nfd s).filter (fun c => !(isCombining c)))).filter isLowerAlnum

/-- Model of `rawWord.replace(/[^\wÀ-ÿ]/g, '')`, the cleanup the Indexer stores in
`content`. -/
def cleanContent (s : Str) : Str := s.filter isWordCharExt

/-- Model of `rawWord.replace(/^[^a-zA-ZÀ-ÿ0-9]+|[^a-zA-ZÀ-ÿ0-9]+$/g, '')`: trim
boundary punctuation only. -/
def btrim (s : Str) : Str :=
  ((s.dropWhile (fun c => !(isKeepDisplay c))).reverse.dropWhile
    (fun c => !(isKeepDisplay c))).reverse

inductive CipherMode where
  | PLP
  | DPLP
deriving DecidableEq, Repr

structure BookLocation where
  paragraph : Nat
  line : Nat
  word : Nat
  content : Str
deriving DecidableEq, Repr

structure ProcessingResult where
  success : Bool
  text : Str
  error : Option Str
  missingTokens : List Str
deriving DecidableEq, Repr

abbrev BookIndex := Str → List BookLocation

/-- One word occurrence the Indexer visits: 1-based coordinates plus the raw
whitespace-delimited word found there. -/
structure BookEntry where
  para : Nat
  line : Nat
  word : Nat
  raw : Str
deriving DecidableEq, Repr

def idxFrom (i : Nat) : List α → List (Nat × α)
  | [] => []
  | x :: xs => (i, x) :: idxFrom (i + 1) xs

/-- The occurrences `indexBook` pushes, in visit order: non-blank paragraphs
(keeping their raw split position), their lines, the words of each trimmed
line, skipping empty raw words and words whose normalized key is empty. -/
def bookEntries (text : Str) : List BookEntry :=
  concatMap (fun pp =>
    if jsTrim pp.2 = [] then []
    else concatMap (fun ll =>
      concatMap (fun ww =>
        if ww.2 = [] then []
        else if normalizeKey ww.2 = [] then []
        else [⟨pp.1 + 1, ll.1 + 1, ww.1 + 1, ww.2⟩])
        (idxFrom 0 (splitWs (jsTrim ll.2))))
      (idxFrom 0 (splitLines pp.2)))
    (idxFrom 0 (paraSplit text))

def locOf (e : BookEntry) : BookLocation :=
  ⟨e.para, e.line, e.word, cleanContent e.raw⟩

def insertLoc (idx : BookIndex) (k : Str) (loc : BookLocation) : BookIndex :=
  fun q => if q = k then idx q ++ [loc] else idx q

def emptyIdx : BookIndex := fun _ => []

/-- The Indexer `indexBook` of the accent-insensitive cipher service.  The mode argument
is accepted but, as in the source, not consulted. -/
def indexBook (text : Str) (_mode : CipherMode) : BookIndex :=
  (bookEntries text).foldl (fun idx e => insertLoc idx (normalizeKey e.raw) (locOf e)) emptyIdx

def msgTokens (message : Str) : List Str := splitWs (jsTrim message)

/-- Model of `dateString.trim() || "DATA"`. -/
def dTag (d : Str) : Str := if jsTrim d = [] then str "DATA" else jsTrim d

def fmtPLW (loc : BookLocation) : Str :=
  natToStr loc.paragraph ++ ':' :: natToStr loc.line ++ ':' :: natToStr loc.word

def fmtTok : CipherMode → Str → BookLocation → Str
  | CipherMode.PLP, _, loc => fmtPLW loc
  | CipherMode.DPLP, dt, loc => dt ++ ':' :: fmtPLW loc

/-- One token of `encodeMessage`: the emitted code plus the raw tokens pushed
onto `missingTokens` while processing it.  `choose` stands for the uniform
random pick among the candidate locations. -/
def encTok (idx : BookIndex) (mode : CipherMode) (d : Str)
    (choose : List BookLocation → BookLocation) (token : Str) : Str × List Str :=
  let key := normalizeKey token
  if key = [] then (token, [])
  else if idx key = [] then ('[' :: token ++ [']'], [token])
  else (fmtTok mode (dTag d) (choose (idx key)), [])

def encodeCodes (idx : BookIndex) (mode : CipherMode) (d : Str)
    (choose : List BookLocation → BookLocation) (toks : List Str) : List Str :=
  toks.map (fun t => (encTok idx mode d choose t).1)

def encodeMissingRaw (idx : BookIndex) (mode : CipherMode) (d : Str)
    (choose : List BookLocation → BookLocation) (toks : List Str) : List Str :=
  concatMap (fun t => (encTok idx mode d choose t).2) toks

def dedupAcc (seen : List Str) : List Str → List Str
  | [] => []
  | x :: xs => if x ∈ seen then dedupAcc seen xs else x :: dedupAcc (x :: seen) xs

/-- Model of `[...new Set(l)]`: first occurrences, in insertion order. -/
def jsSetDedup (l : List Str) : List Str := dedupAcc [] l

/-- The Encoder `encodeMessage` of the accent-insensitive cipher service. -/
def encodeMessage (message : Str) (bookIndex : BookIndex) (mode : CipherMode)
    (dateString : Str) (choose : List BookLocation → BookLocation) : ProcessingResult :=
  let toks := msgTokens message
  let missing := encodeMissingRaw bookIndex mode dateString choose toks
  ⟨missing.isEmpty, joinSep [' ', ' '] (encodeCodes bookIndex mode dateString choose toks),
    none, jsSetDedup missing⟩

/-- The shared tail of the decoder once the three structural fields are
parsed (`none` models `NaN`): validate, then resolve paragraph, line, word. -/
def decodeCore (paragraphs : List Str) : Option Int → Option Int → Option Int → Str
  | some pa, some li, some wo =>
    if pa < 1 ∨ pa > (paragraphs.length : Int) then str "?"
    else
      let paraContent := paragraphs.getD (pa - 1).toNat []
      if paraContent = [] then str "?"
      else
        let lines := splitLines paraContent
        if li < 1 ∨ li > (lines.length : Int) then str "?"
        else
          let lineContent := lines.getD (li - 1).toNat []
          let words := splitWs (jsTrim lineContent)
          if wo < 1 ∨ wo > (words.length : Int) then str "?"
          else jsToUpper (btrim (words.getD (wo - 1).toNat []))
  | _, _, _ => str "?"

/-- One cipher token of `decodeMessage` (accent-insensitive service). -/
def decodeTok (paragraphs : List Str) (mode : CipherMode) (token : Str) : Str :=
  if token.head? = some '[' ∧ token.getLast? = some ']' then (token.drop 1).dropLast
  else if !(token.any (fun c => c == ':')) then token
  else
    let parts := splitOn ':' token
    match mode, parts with
    | CipherMode.PLP, [a, b, c] =>
      decodeCore paragraphs (jsParseInt a) (jsParseInt b) (jsParseInt c)
    | CipherMode.DPLP, [_, a, b, c] =>
      decodeCore paragraphs (jsParseInt a) (jsParseInt b) (jsParseInt c)
    | _, _ => str "?"

/-- The Decoder `decodeMessage` of the accent-insensitive cipher service. -/
def decodeMessage (cipher bookText : Str) (mode : CipherMode) : ProcessingResult :=
  let paragraphs := paraSplit bookText
  let tokens := splitWs (jsTrim cipher)
  ⟨true, joinSep [' '] (tokens.map (decodeTok paragraphs mode)), none, []⟩

/-- The decoder resolution steps on their own: paragraph `p`, line `l` within
it, word `w` within that trimmed line (all 1-based). -/
def resolveRaw (bookText : Str) (p l w : Nat) : Option Str :=
  match (paraSplit bookText)[p - 1]? with
  | none => none
  | some para =>
    match (splitLines para)[l - 1]? with
    | none => none
    | some line => (splitWs (jsTrim line))[w - 1]?

def chooseHead (l : List BookLocation) : BookLocation := l.headD ⟨0, 0, 0, []⟩

/-- The single-paragraph, single-line example book of the specification. -/
def gatoBook : Str := str "O gato subiu no muro."

namespace LW

inductive CipherMode where
  | WORD
  | OTTENDORF
deriving DecidableEq, Repr

structure BookLocation where
  line : Nat
  word : Nat
  char : Nat
  content : Str
deriving DecidableEq, Repr

abbrev BookIndex := Str → List BookLocation

/-- Model of `rawWord.replace(/[^\wÀ-ÿ]/g, '').toLowerCase()`. -/
def cleanLower (s : Str) : Str := jsToLower (cleanContent s)

/-- The Indexer `indexBook` of the Line-Word / Ottendorf cipher service: lines of the
whole text, words of each trimmed line; Ottendorf mode indexes each character
of the cleaned word at its 1-based position within it (the `char` field is 0
where the source omits it). -/
def indexBook (text : Str) (mode : CipherMode) : BookIndex :=
  let entries : List (Str × BookLocation) :=
    concatMap (fun lp =>
      concatMap (fun wp =>
        if wp.2 = [] then []
        else
          match mode with
          | CipherMode.WORD =>
            if cleanLower wp.2 = [] then []
            else [(cleanLower wp.2, ⟨lp.1 + 1, wp.1 + 1, 0, cleanLower wp.2⟩)]
          | CipherMode.OTTENDORF =>
            (idxFrom 0 (cleanLower wp.2)).map (fun cp =>
              ([toLowerChar cp.2], ⟨lp.1 + 1, wp.1 + 1, cp.1 + 1, [cp.2]⟩)))
        (idxFrom 0 (splitWs (jsTrim lp.2))))
      (idxFrom 0 (splitLines text))
  entries.foldl (fun idx e => fun q => if q = e.1 then idx q ++ [e.2] else idx q) (fun _ => [])

def emptyIdx : BookIndex := fun _ => []

def chooseHead (l : List BookLocation) : BookLocation := l.headD ⟨0, 0, 0, []⟩

/-- The single-paragraph, single-line example book of the specification. -/
def gatoBook : Str := str "O gato subiu no muro."

/-- The Encoder `encodeMessage` of the Line-Word / Ottendorf service.  In WORD mode a
token whose cleaned form is empty maps to `null` and is filtered out of the
emitted codes. -/
def encodeMessage (message : Str) (bookIndex : BookIndex) (mode : CipherMode)
    (pageNumber : Nat) (choose : List BookLocation → BookLocation) : ProcessingResult :=
  match mode with
  | CipherMode.WORD =>
    let pairs := (splitWs (jsTrim message)).map (fun token =>
      if cleanLower token = [] then ((none : Option Str), ([] : List Str))
      else if bookIndex (cleanLower token) = [] then (some ('[' :: token ++ [']']), [token])
      else
        let loc := choose (bookIndex (cleanLower token))
        (some (natToStr loc.line ++ ':' :: natToStr loc.word), []))
    let missing := concatMap Prod.snd pairs
    ⟨missing.isEmpty, joinSep [' ', ' '] (pairs.filterMap Prod.fst), none, jsSetDedup missing⟩
  | CipherMode.OTTENDORF =>
    let pairs := message.map (fun c =>
      if isSpace c then ((['/'] : Str), ([] : List Str))
      else if !(isOttChar (toLowerChar c)) then ([c], [])
      else if bookIndex [toLowerChar c] = [] then ('[' :: c :: [']'], [[c]])
      else
        let loc := choose (bookIndex [toLowerChar c])
        (natToStr pageNumber ++ ':' :: natToStr loc.line ++ ':' :: natToStr loc.word ++
          ':' :: natToStr loc.char, []))
    let missing := concatMap Prod.snd pairs
    ⟨missing.isEmpty, joinSep [' '] (pairs.map Prod.fst), none, jsSetDedup missing⟩

/-- The `NaN`-faithful bounds test: comparisons against `NaN` are false, so a
`NaN` field passes this check, as in the source. -/
def optOut (o : Option Int) (len : Nat) : Bool :=
  match o with
  | none => false
  | some v => decide (v < 1 ∨ v > (len : Int))

/-- One cipher token of the Line-Word / Ottendorf decoder.  The result is
`none` when the source would throw a `TypeError`: a `NaN` structural field
passes the bounds checks (`NaN` comparisons are false) and the code then
calls a method on the `undefined` array element. -/
def decodeTok (lines : List Str) (mode : CipherMode) (token : Str) : Option Str :=
  if token = ['/'] then some [' ']
  else if token.head? = some '[' ∧ token.getLast? = some ']' then some ((token.drop 1).dropLast)
  else if !(token.any (fun c => c == ':')) then some token
  else
    let parts := (splitOn ':' token).map jsParseInt
    let nums : Option Int × Option Int × Option Int :=
      match mode with
      | CipherMode.WORD =>
        if parts.length ≥ 2 then (parts.getD 0 none, parts.getD 1 none, some 0)
        else (some 0, some 0, some 0)
      | CipherMode.OTTENDORF =>
        if parts.length = 4 then (parts.getD 1 none, parts.getD 2 none, parts.getD 3 none)
        else if parts.length = 3 then (parts.getD 0 none, parts.getD 1 none, parts.getD 2 none)
        else (some 0, some 0, some 0)
    if optOut nums.1 lines.length then some (str "?")
    else
      match nums.1 with
      | none => none
      | some li =>
        let words := splitWs (jsTrim (lines.getD (li - 1).toNat []))
        if optOut nums.2.1 words.length then some (str "?")
        else
          match nums.2.1 with
          | none => none
          | some wo =>
            let cleanWord := cleanContent (words.getD (wo - 1).toNat [])
            match mode with
            | CipherMode.WORD => some (jsToUpper cleanWord)
            | CipherMode.OTTENDORF =>
              if optOut nums.2.2 cleanWord.length then some (str "?")
              else
                match nums.2.2 with
                | none => none
                | some ch => some (upperChar (cleanWord.getD (ch - 1).toNat ' '))

/-- The Decoder `decodeMessage` of the Line-Word / Ottendorf service; `none` models an
uncaught exception escaping the call. -/
def decodeMessage (cipher bookText : Str) (mode : CipherMode) : Option ProcessingResult :=
  let lines := splitLines bookText
  ((splitWs (jsTrim cipher)).mapM (decodeTok lines mode)).map (fun parts =>
    ⟨true,
      match mode with
      | CipherMode.WORD => joinSep [' '] parts
      | CipherMode.OTTENDORF => joinSep [] parts,
      none, []⟩)

end LW

/-! ## Helper lemmas -/

theorem length_takeWhile_le (p : Char → Bool) (l : Str) : (l.takeWhile p).length ≤ l.length := by
  induction l with
  | nil => simp
  | cons c cs ih =>
    rw [List.takeWhile_cons]
    cases p c <;> simp <;> omega

theorem sepMatch_length_lt {s rem : Str} (h : sepMatch s = some rem) : rem.length < s.length := by
  match s with
  | [] => simp [sepMatch] at h
  | c :: rest =>
    simp only [sepMatch] at h
    split at h
    · split at h
      · injection h with h
        subst h
        have h1 := length_takeWhile_le (fun b => b != '\n') (rest.takeWhile isSpace).reverse
        rw [List.length_reverse] at h1
        have h2 := congrArg List.length (List.takeWhile_append_dropWhile isSpace rest)
        rw [List.length_append] at h2
        simp only [List.length_append, List.length_reverse, List.length_cons]
        omega
      · exact absurd h (by simp)
    · exact absurd h (by simp)

/-! ## Claim theorems: first batch -/

/-- C3: normalization is deterministic (it is a pure function, so equal
inputs give equal keys), and under the accent-insensitive policy the keys of
"Vovó!" and "vovo" coincide (both are "vovo"). -/
theorem c3_normalize_deterministic :
    (∀ x : Str, normalizeKey x = normalizeKey x) ∧
    normalizeKey (str "Vovó!") = normalizeKey (str "vovo") :=
  ⟨fun _ => rfl, by decide⟩

/-- C10: encoding a message that is empty or whitespace-only yields empty
cipher text, no missing tokens, and success, for every index, mode, tag and
random choice. -/
theorem c10_empty_message (bookIndex : BookIndex) (mode : CipherMode) (d M : Str)
    (choose : List BookLocation → BookLocation) (h : jsTrim M = []) :
    encodeMessage M bookIndex mode d choose = ⟨true, [], none, []⟩ := by
  have hm : msgTokens M = [[]] := by
    unfold msgTokens
    rw [h]
    rfl
  unfold encodeMessage
  rw [hm]
  rfl

/-- Witness for C10 at the whitespace-only message "   ". -/
theorem c10_empty_message_witness :
    jsTrim (str "   ") = [] ∧
    encodeMessage (str "   ") emptyIdx CipherMode.PLP [] chooseHead = ⟨true, [], none, []⟩ :=
  ⟨by decide, c10_empty_message emptyIdx CipherMode.PLP [] (str "   ") chooseHead (by decide)⟩

/-- C2 (failing input): in Line-Word mode, decoding the token "a:b" against
the book "x" evaluates `parseInt` to `NaN` on both fields, the `NaN` values
pass the bounds checks, and the source then dereferences an undefined array
element, throwing a `TypeError` (modelled as `none`) instead of resolving the
token to "?". -/
theorem c2_word_decode_crash :
    LW.decodeMessage (str "a:b") (str "x") LW.CipherMode.WORD = none := by decide

/-- C4 (counterexample): a lone carriage return is not treated as a line
separator — it stays inside the line as ordinary whitespace — so replacing it
by a line feed moves the second word from line 1, word 2 to line 2, word 1. -/
theorem c4_lone_cr_changes_index :
    (indexBook (str "a\rb") CipherMode.PLP) (str "b") = [⟨1, 1, 2, str "b"⟩] ∧
    (indexBook (str "a\nb") CipherMode.PLP) (str "b") = [⟨1, 2, 1, str "b"⟩] := by decide

/-- C5 (counterexample): for the book "ga-to" the Indexer stores content
"gato" (all non-word characters removed, original case), but re-resolving the
stored coordinate 1:1:1 yields "GA-TO" (boundary trim keeps the inner hyphen,
and the output is upper-cased), which differs from the stored content. -/
theorem c5_content_mismatch :
    (indexBook (str "ga-to") CipherMode.PLP) (str "gato") = [⟨1, 1, 1, str "gato"⟩] ∧
    (decodeMessage (str "1:1:1") (str "ga-to") CipherMode.PLP).text = str "GA-TO" ∧
    str "GA-TO" ≠ str "gato" := by decide

/-- C6 (counterexample): the token "!!!" normalizes to the empty key, which
is absent from the empty index, yet it is passed through rather than recorded
in `missingTokens`, so it does not appear there exactly once. -/
theorem c6_empty_key_not_reported :
    msgTokens (str "!!!") = [str "!!!"] ∧
    normalizeKey (str "!!!") = [] ∧
    emptyIdx (normalizeKey (str "!!!")) = [] ∧
    (encodeMessage (str "!!!") emptyIdx CipherMode.PLP [] chooseHead).missingTokens = [] ∧
    (encodeMessage (str "!!!") emptyIdx CipherMode.PLP [] chooseHead).success = true := by decide

/-- C7 (counterexample): for a book that begins with a blank line run, the
discarded leading empty paragraph keeps its ordinal slot, so the first
non-blank paragraph is addressed as paragraph 2, not paragraph 1 — decoding
1:1:1 gives "?" while 2:1:1 resolves the word. -/
theorem c7_leading_blank_paragraph_numbering :
    (indexBook (str "\n\nx") CipherMode.PLP) (str "x") = [⟨2, 1, 1, str "x"⟩] ∧
    (decodeMessage (str "1:1:1") (str "\n\nx") CipherMode.PLP).text = str "?" ∧
    (decodeMessage (str "2:1:1") (str "\n\nx") CipherMode.PLP).text = str "X" := by decide

/-- C8 (counterexample): in the Line-Word encoder a token that cleans to the
empty key is mapped to `null` and filtered out of the codes, so the message
"!" encodes to empty cipher text — the raw token is dropped, not passed
through. -/
theorem c8_word_mode_drops_empty_key :
    msgTokens (str "!") = [str "!"] ∧
    LW.encodeMessage (str "!") LW.emptyIdx LW.CipherMode.WORD 1 LW.chooseHead =
      ⟨true, [], none, []⟩ := by decide

/-! ## List helpers -/

theorem mem_concatMap {f : α → List β} {l : List α} {b : β} :
    b ∈ concatMap f l ↔ ∃ a ∈ l, b ∈ f a := by
  induction l with
  | nil => simp [concatMap]
  | cons x xs ih =>
    simp only [concatMap, List.mem_append, List.mem_cons, ih]
    constructor
    · rintro (h | ⟨a, ha, hb⟩)
      · exact ⟨x, Or.inl rfl, h⟩
      · exact ⟨a, Or.inr ha, hb⟩
    · rintro ⟨a, rfl | ha, hb⟩
      · exact Or.inl hb
      · exact Or.inr ⟨a, ha, hb⟩

theorem idxFrom_mem {l : List α} {j i : Nat} {a : α} (h : (i, a) ∈ idxFrom j l) :
    ∃ n, l[n]? = some a ∧ i = j + n := by
  induction l generalizing j with
  | nil => simp [idxFrom] at h
  | cons x xs ih =>
    simp only [idxFrom, List.mem_cons] at h
    rcases h with h | h
    · have h1 : i = j ∧ a = x := by
        constructor
        · exact congrArg Prod.fst h
        · exact congrArg Prod.snd h
      exact ⟨0, by simp [h1.2], by omega⟩
    · obtain ⟨n, hn, hi⟩ := ih h
      exact ⟨n + 1, by simpa using hn, by omega⟩

theorem consHead_ne_nil (c : Char) (l : List Str) : consHead c l ≠ [] := by
  cases l <;> simp [consHead]

theorem mem_dedupAcc {l : List Str} : ∀ {seen : List Str} {a : Str},
    a ∈ dedupAcc seen l ↔ a ∈ l ∧ a ∉ seen := by
  induction l with
  | nil => intro seen a; simp [dedupAcc]
  | cons x xs ih =>
    intro seen a
    simp only [dedupAcc]
    split
    · rename_i hx
      rw [ih]
      simp only [List.mem_cons]
      constructor
      · rintro ⟨h1, h2⟩; exact ⟨Or.inr h1, h2⟩
      · rintro ⟨rfl | h1, h2⟩
        · exact absurd hx h2
        · exact ⟨h1, h2⟩
    · rename_i hx
      simp only [List.mem_cons, ih, List.mem_cons]
      constructor
      · rintro (rfl | ⟨h1, h2⟩)
        · exact ⟨Or.inl rfl, hx⟩
        · exact ⟨Or.inr h1, fun hs => h2 (Or.inr hs)⟩
      · rintro ⟨rfl | h1, h2⟩
        · exact Or.inl rfl
        · by_cases hax : a = x
          · exact Or.inl hax
          · exact Or.inr ⟨h1, fun hs => by
              rcases hs with hs | hs
              · exact hax hs
              · exact h2 hs⟩

theorem nodup_dedupAcc (l : List Str) : ∀ seen, (dedupAcc seen l).Nodup := by
  induction l with
  | nil => intro seen; simp [dedupAcc]
  | cons x xs ih =>
    intro seen
    simp only [dedupAcc]
    split
    · exact ih seen
    · refine List.Nodup.cons ?_ (ih (x :: seen))
      intro hx
      rw [mem_dedupAcc] at hx
      exact hx.2 (List.mem_cons_self x seen)

theorem count_one_of_nodup_mem {l : List Str} {a : Str} (hn : l.Nodup) (hm : a ∈ l) :
    l.count a = 1 := by
  induction l with
  | nil => simp at hm
  | cons b bs ih =>
    rw [List.count_cons]
    rcases List.mem_cons.mp hm with rfl | hm2
    · have hb : a ∉ bs := (List.nodup_cons.mp hn).1
      have hz : bs.count a = 0 := by
        rw [List.count_eq_zero]
        exact hb
      simp [hz]
    · have hb : b ∉ bs := (List.nodup_cons.mp hn).1
      have hne : (b == a) = false := by
        simp only [beq_eq_false_iff_ne, ne_eq]
        rintro rfl
        exact hb hm2
      rw [ih (List.nodup_cons.mp hn).2 hm2, hne]
      simp

theorem count_jsSetDedup_of_mem {l : List Str} {a : Str} (h : a ∈ l) :
    (jsSetDedup l).count a = 1 := by
  have hm : a ∈ jsSetDedup l := by
    rw [jsSetDedup, mem_dedupAcc]
    exact ⟨h, by simp⟩
  exact count_one_of_nodup_mem (nodup_dedupAcc l []) hm

theorem mem_jsSetDedup {l : List Str} {a : Str} : a ∈ jsSetDedup l ↔ a ∈ l := by
  rw [jsSetDedup, mem_dedupAcc]
  simp

theorem jsSetDedup_eq_nil_iff {l : List Str} : jsSetDedup l = [] ↔ l = [] := by
  cases l with
  | nil => simp [jsSetDedup, dedupAcc]
  | cons x xs => simp [jsSetDedup, dedupAcc]

/-! ## Lemmas about splitWs, jsTrim and joinSep -/

theorem splitWs_cons_nonspace {c : Char} (rest : Str) (hc : isSpace c = false) :
    splitWs (c :: rest) = consHead c (splitWs rest) := by
  simp only [splitWs, hc]
  simp

theorem splitWs_space_nil {c : Char} (hc : isSpace c = true) : splitWs [c] = [[], []] := by
  simp only [splitWs, hc]
  simp

theorem splitWs_space_space {c d : Char} (rs : Str) (hc : isSpace c = true)
    (hd : isSpace d = true) : splitWs (c :: d :: rs) = splitWs (d :: rs) := by
  simp only [splitWs, hc, hd]
  simp

theorem splitWs_space_nonspace {c d : Char} (rs : Str) (hc : isSpace c = true)
    (hd : isSpace d = false) : splitWs (c :: d :: rs) = [] :: splitWs (d :: rs) := by
  conv_lhs => rw [splitWs]
  rw [if_pos hc]
  show (if isSpace d = true then splitWs (d :: rs) else [] :: splitWs (d :: rs)) = _
  rw [hd]
  simp

theorem splitWs_ne_nil (s : Str) : splitWs s ≠ [] := by
  induction s with
  | nil => simp [splitWs]
  | cons c rest ih =>
    by_cases hc : isSpace c = true
    · cases rest with
      | nil => rw [splitWs_space_nil hc]; simp
      | cons d rs =>
        by_cases hd : isSpace d = true
        · rw [splitWs_space_space rs hc hd]; exact ih
        · rw [splitWs_space_nonspace rs hc (by simpa using hd)]; simp
    · rw [splitWs_cons_nonspace rest (by simpa using hc)]
      exact consHead_ne_nil c _

theorem splitWs_nonspace {s : Str} (hne : s ≠ []) (h : ∀ c ∈ s, isSpace c = false) :
    splitWs s = [s] := by
  induction s with
  | nil => exact absurd rfl hne
  | cons c rest ih =>
    rw [splitWs_cons_nonspace rest (h c (by simp))]
    cases rest with
    | nil => simp [splitWs, consHead]
    | cons d rs =>
      rw [ih (by simp) (fun x hx => h x (by simp [hx]))]
      simp [consHead]

theorem splitWs_append {a z : Str} {p : Str} {ps : List Str}
    (ha : ∀ c ∈ a, isSpace c = false) (hz : splitWs z = p :: ps) :
    splitWs (a ++ z) = (a ++ p) :: ps := by
  induction a with
  | nil => simpa using hz
  | cons c cs ih =>
    have step := ih (fun x hx => ha x (by simp [hx]))
    rw [List.cons_append, splitWs_cons_nonspace _ (ha c (by simp)), step]
    simp [consHead]

theorem splitWs_two_spaces {z : Str} {d : Char} (hz : z.head? = some d)
    (hd : isSpace d = false) : splitWs (' ' :: ' ' :: z) = [] :: splitWs z := by
  cases z with
  | nil => simp at hz
  | cons e es =>
    rw [List.head?_cons, Option.some.injEq] at hz
    have he : isSpace e = false := by rw [hz]; exact hd
    rw [splitWs_space_space (e :: es) (by decide) (by decide)]
    exact splitWs_space_nonspace es (by decide) he

theorem joinSep_cons_append (sep : Str) (c : Str) (cs : List Str) :
    ∃ T, joinSep sep (c :: cs) = c ++ T := by
  cases cs with
  | nil => exact ⟨[], by simp [joinSep]⟩
  | cons c2 rest => exact ⟨sep ++ joinSep sep (c2 :: rest), by simp [joinSep]⟩

theorem splitWs_join2 {codes : List Str} (hne : codes ≠ [])
    (h : ∀ c ∈ codes, c ≠ [] ∧ ∀ ch ∈ c, isSpace ch = false) :
    splitWs (joinSep [' ', ' '] codes) = codes := by
  induction codes with
  | nil => exact absurd rfl hne
  | cons c cs ih =>
    cases cs with
    | nil =>
      have hc := h c (by simp)
      show splitWs (joinSep [' ', ' '] [c]) = [c]
      rw [show joinSep [' ', ' '] [c] = c from rfl]
      exact splitWs_nonspace hc.1 hc.2
    | cons c2 rest =>
      have hc := h c (by simp)
      have hc2 := h c2 (by simp)
      have hih := ih (by simp) (fun x hx => h x (by simp [List.mem_cons] at hx ⊢; tauto))
      obtain ⟨T, hT⟩ := joinSep_cons_append [' ', ' '] c2 rest
      obtain ⟨d, ds, hds⟩ : ∃ d ds, c2 = d :: ds := by
        cases c2 with
        | nil => exact absurd rfl hc2.1
        | cons d ds => exact ⟨d, ds, rfl⟩
      have hsep : splitWs (' ' :: ' ' :: joinSep [' ', ' '] (c2 :: rest)) =
          [] :: splitWs (joinSep [' ', ' '] (c2 :: rest)) := by
        refine splitWs_two_spaces ?_ (hc2.2 d (by simp [hds]))
        rw [hT, hds]
        simp
      have hjoin : joinSep [' ', ' '] (c :: c2 :: rest) =
          c ++ (' ' :: ' ' :: joinSep [' ', ' '] (c2 :: rest)) := by
        show c ++ [' ', ' '] ++ joinSep [' ', ' '] (c2 :: rest) = _
        simp
      rw [hjoin]
      rw [splitWs_append hc.2 hsep, hih]
      simp

theorem dropWhile_eq_self_of_head {p : Char → Bool} {s : Str}
    (h : ∀ c, s.head? = some c → p c = false) : s.dropWhile p = s := by
  cases s with
  | nil => rfl
  | cons c cs =>
    rw [List.dropWhile_cons, h c rfl]
    simp

theorem jsTrim_noop {s : Str} (h1 : ∀ c, s.head? = some c → isSpace c = false)
    (h2 : ∀ c, s.getLast? = some c → isSpace c = false) : jsTrim s = s := by
  unfold jsTrim
  rw [dropWhile_eq_self_of_head h1]
  rw [dropWhile_eq_self_of_head (fun c hc => h2 c (by rwa [List.head?_reverse] at hc))]
  exact List.reverse_reverse s

theorem jsTrim_nil : jsTrim [] = [] := rfl

theorem joinSep_head? {sep : Str} {c : Str} {cs : List Str} (hc : c ≠ []) :
    (joinSep sep (c :: cs)).head? = c.head? := by
  obtain ⟨T, hT⟩ := joinSep_cons_append sep c cs
  rw [hT]
  cases c with
  | nil => exact absurd rfl hc
  | cons d ds => rfl

theorem joinSep_getLast? {sep : Str} {codes : List Str} {c : Str}
    (hne : ∀ x ∈ codes, x ≠ []) (hlast : codes.getLast? = some c) :
    (joinSep sep codes).getLast? = c.getLast? := by
  induction codes with
  | nil => simp at hlast
  | cons x xs ih =>
    cases xs with
    | nil =>
      simp only [List.getLast?_singleton] at hlast
      injection hlast with hlast
      subst hlast
      rfl
    | cons y ys =>
      have hy : y ≠ [] := hne y (by simp)
      obtain ⟨T, hT⟩ := joinSep_cons_append sep y ys
      have hJ : joinSep sep (y :: ys) ≠ [] := by
        rw [hT]
        cases y with
        | nil => exact absurd rfl hy
        | cons d ds => simp
      have hcons : joinSep sep (x :: y :: ys) = (x ++ sep) ++ joinSep sep (y :: ys) := by
        show x ++ sep ++ joinSep sep (y :: ys) = _
        simp
      rw [hcons, List.getLast?_append_of_ne_nil _ hJ]
      exact ih (fun z hz => hne z (by simp [List.mem_cons] at hz ⊢; tauto))
        (by rwa [List.getLast?_cons_cons] at hlast)

/-! ## Lemmas about natToStr, jsParseInt and splitOn -/

theorem digitChar_toNat {d : Nat} (h : d < 10) : (digitChar d).toNat = 48 + d := by
  interval_cases d <;> decide

theorem digitChar_range (d : Nat) : 48 ≤ (digitChar d).toNat ∧ (digitChar d).toNat ≤ 57 := by
  by_cases h : d < 10
  · rw [digitChar_toNat h]
    omega
  · have : digitChar d = '9' := by
      unfold digitChar
      split <;> first | rfl | omega
    rw [this]
    decide

theorem natToRevF_digits : ∀ fuel n, ∀ c ∈ natToRevF fuel n, 48 ≤ c.toNat ∧ c.toNat ≤ 57 := by
  intro fuel
  induction fuel with
  | zero => intro n c hc; simp [natToRevF] at hc
  | succ f ih =>
    intro n c hc
    cases n with
    | zero => simp [natToRevF] at hc
    | succ m =>
      rw [natToRevF] at hc
      rcases List.mem_cons.mp hc with rfl | hc2
      · exact digitChar_range _
      · exact ih _ c hc2

theorem natToStr_digits (n : Nat) : ∀ c ∈ natToStr n, 48 ≤ c.toNat ∧ c.toNat ≤ 57 := by
  intro c hc
  unfold natToStr at hc
  split at hc
  · simp at hc
    rw [hc]
    decide
  · rw [List.mem_reverse] at hc
    exact natToRevF_digits n n c hc

theorem natToStr_ne_nil (n : Nat) : natToStr n ≠ [] := by
  unfold natToStr
  split
  · simp
  · rename_i h
    cases n with
    | zero => exact absurd rfl h
    | succ m =>
      rw [natToRevF]
      simp

theorem isSpace_false_of_digit {c : Char} (h1 : 48 ≤ c.toNat) (h2 : c.toNat ≤ 57) :
    isSpace c = false := by
  unfold isSpace
  rw [decide_eq_false_iff_not]
  rintro (rfl | rfl | rfl | rfl | rfl | rfl | rfl) <;>
    first
    | exact absurd h1 (by decide)
    | exact absurd h2 (by decide)

theorem takeWhile_all {p : Char → Bool} {s : Str} (h : ∀ c ∈ s, p c = true) :
    s.takeWhile p = s := by
  induction s with
  | nil => rfl
  | cons c cs ih =>
    rw [List.takeWhile_cons, h c (by simp), ih (fun x hx => h x (by simp [hx]))]
    simp

theorem digitsVal_append_digit (l : Str) (c : Char) :
    digitsVal (l ++ [c]) = digitsVal l * 10 + (c.toNat - 48) := by
  simp [digitsVal, List.foldl_append]

theorem digitsVal_natToRevF_rev : ∀ fuel n, n ≤ fuel → digitsVal (natToRevF fuel n).reverse = n := by
  intro fuel
  induction fuel with
  | zero =>
    intro n h
    interval_cases n
    simp [natToRevF, digitsVal]
  | succ f ih =>
    intro n h
    cases n with
    | zero => simp [natToRevF, digitsVal]
    | succ m =>
      rw [natToRevF, List.reverse_cons, digitsVal_append_digit]
      have hdiv : (m + 1) / 10 < m + 1 := Nat.div_lt_self (by omega) (by omega)
      rw [ih ((m + 1) / 10) (by omega)]
      have hmod : (m + 1) % 10 < 10 := Nat.mod_lt _ (by omega)
      rw [digitChar_toNat hmod]
      have := Nat.div_add_mod (m + 1) 10
      omega

theorem digitsVal_natToStr (n : Nat) : digitsVal (natToStr n) = n := by
  unfold natToStr
  split
  · rename_i h
    rw [h]
    decide
  · exact digitsVal_natToRevF_rev n n (le_refl n)

theorem jsParseInt_natToStr (n : Nat) : jsParseInt (natToStr n) = some (n : Int) := by
  have hd := natToStr_digits n
  have hne := natToStr_ne_nil n
  obtain ⟨x, xs, hxs⟩ : ∃ x xs, natToStr n = x :: xs := by
    cases hnn : natToStr n with
    | nil => exact absurd hnn hne
    | cons x xs => exact ⟨x, xs, rfl⟩
  have hx : 48 ≤ x.toNat ∧ x.toNat ≤ 57 := hd x (by rw [hxs]; simp)
  have h1 : (natToStr n).dropWhile isSpace = natToStr n := by
    apply dropWhile_eq_self_of_head
    intro c hc
    rw [hxs, List.head?_cons, Option.some.injEq] at hc
    subst hc
    exact isSpace_false_of_digit hx.1 hx.2
  have hparse : parseDigits (natToStr n) = some n := by
    unfold parseDigits
    rw [takeWhile_all (fun c hc => by
      unfold isDigitCh
      rw [decide_eq_true_eq]
      exact hd c hc)]
    rw [if_neg hne, digitsVal_natToStr]
  unfold jsParseInt
  rw [h1, hxs]
  split
  · rename_i heq
    rw [List.cons.injEq] at heq
    obtain ⟨rfl, -⟩ := heq
    exact absurd hx.1 (by decide)
  · rename_i heq
    rw [List.cons.injEq] at heq
    obtain ⟨rfl, -⟩ := heq
    exact absurd hx.1 (by decide)
  · rw [← hxs, hparse]
    rfl

theorem splitOn_no_sep {sep : Char} {s : Str} (h : ∀ c ∈ s, c ≠ sep) : splitOn sep s = [s] := by
  induction s with
  | nil => rfl
  | cons c rest ih =>
    rw [splitOn, if_neg (h c (by simp))]
    rw [ih (fun x hx => h x (by simp [hx]))]
    rfl

theorem splitOn_append {sep : Char} {a b : Str} (h : ∀ c ∈ a, c ≠ sep) :
    splitOn sep (a ++ sep :: b) = a :: splitOn sep b := by
  induction a with
  | nil =>
    simp only [List.nil_append]
    rw [splitOn, if_pos rfl]
  | cons c cs ih =>
    rw [List.cons_append, splitOn, if_neg (h c (by simp))]
    rw [ih (fun x hx => h x (by simp [hx]))]
    rfl

/-! ## Line splitting: carriage-return handling -/

theorem splitLines_cons_nl (t : Str) : splitLines ('\n' :: t) = [] :: splitLines t := by
  cases t with
  | nil => rfl
  | cons d rest =>
    show splitLines ('\n' :: d :: rest) = _
    rw [splitLines]
    simp

theorem splitLines_cons_crnl (t : Str) : splitLines ('\r' :: '\n' :: t) = [] :: splitLines t := by
  rw [splitLines]
  simp

theorem splitLines_cons2_other {c d : Char} (rest : Str) (hc : c ≠ '\n')
    (hcd : ¬(c = '\r' ∧ d = '\n')) :
    splitLines (c :: d :: rest) = consHead c (splitLines (d :: rest)) := by
  rw [splitLines, if_neg hc, if_neg hcd]

theorem splitLines_crlf_aux : ∀ n (s t : Str), s.length ≤ n → s.getLast? ≠ some '\r' →
    splitLines (s ++ '\r' :: '\n' :: t) = splitLines (s ++ '\n' :: t) := by
  intro n
  induction n with
  | zero =>
    intro s t hlen h
    have hs : s = [] := List.length_eq_zero.mp (by omega)
    subst hs
    simp only [List.nil_append]
    rw [splitLines_cons_crnl, splitLines_cons_nl]
  | succ m ih =>
    intro s t hlen h
    match s with
    | [] =>
      simp only [List.nil_append]
      rw [splitLines_cons_crnl, splitLines_cons_nl]
    | [c] =>
      by_cases hc : c = '\n'
      · subst hc
        simp only [List.cons_append, List.nil_append]
        rw [splitLines_cons_nl, splitLines_cons_nl, splitLines_cons_crnl, splitLines_cons_nl]
      · by_cases hcr : c = '\r'
        · subst hcr
          simp at h
        · simp only [List.cons_append, List.nil_append]
          rw [splitLines_cons2_other _ hc (by rintro ⟨-, h2⟩; exact absurd h2 (by decide))]
          rw [splitLines_cons2_other _ hc (by rintro ⟨h1, -⟩; exact hcr h1)]
          rw [splitLines_cons_crnl, splitLines_cons_nl]
    | c :: d :: ss =>
      by_cases hc : c = '\n'
      · subst hc
        show splitLines ('\n' :: ((d :: ss) ++ '\r' :: '\n' :: t)) =
          splitLines ('\n' :: ((d :: ss) ++ '\n' :: t))
        rw [splitLines_cons_nl, splitLines_cons_nl]
        congr 1
        apply ih (d :: ss) t (by simp at hlen ⊢; omega)
        rwa [List.getLast?_cons_cons] at h
      · by_cases hcd : c = '\r' ∧ d = '\n'
        · obtain ⟨rfl, rfl⟩ := hcd
          show splitLines ('\r' :: '\n' :: (ss ++ '\r' :: '\n' :: t)) =
            splitLines ('\r' :: '\n' :: (ss ++ '\n' :: t))
          rw [splitLines_cons_crnl, splitLines_cons_crnl]
          congr 1
          apply ih ss t (by simp at hlen ⊢; omega)
          intro hss
          cases ss with
          | nil => simp at hss
          | cons e es =>
            apply h
            show ('\r' :: '\n' :: e :: es).getLast? = some '\r'
            rw [List.getLast?_cons_cons, List.getLast?_cons_cons]
            exact hss
        · show splitLines (c :: d :: (ss ++ '\r' :: '\n' :: t)) =
            splitLines (c :: d :: (ss ++ '\n' :: t))
          rw [splitLines_cons2_other _ hc hcd, splitLines_cons2_other _ hc hcd]
          have hstep : splitLines (d :: (ss ++ '\r' :: '\n' :: t)) =
              splitLines (d :: (ss ++ '\n' :: t)) := by
            show splitLines ((d :: ss) ++ '\r' :: '\n' :: t) =
              splitLines ((d :: ss) ++ '\n' :: t)
            apply ih (d :: ss) t (by simp at hlen ⊢; omega)
            rwa [List.getLast?_cons_cons] at h
          rw [hstep]

/-! ## Indexer characterization -/

theorem getElem?_lt {α} {l : List α} {n : Nat} {a : α} (h : l[n]? = some a) : n < l.length := by
  rw [List.getElem?_eq_some] at h
  exact h.1

theorem getD_of_getElem? {α} {l : List α} {n : Nat} {a d : α} (h : l[n]? = some a) :
    l.getD n d = a := by
  simp [List.getD, List.get?_eq_getElem?, h]

theorem getLast?_of_ne_nil {α} {l : List α} (h : l ≠ []) : ∃ c, l.getLast? = some c ∧ c ∈ l := by
  cases hl : l.getLast? with
  | none => exact absurd (List.getLast?_eq_none_iff.mp hl) h
  | some c => exact ⟨c, rfl, List.mem_of_mem_getLast? hl⟩

theorem foldl_insertLoc (es : List BookEntry) : ∀ (idx : BookIndex) (k : Str),
    (es.foldl (fun idx e => insertLoc idx (normalizeKey e.raw) (locOf e)) idx) k =
      idx k ++ ((es.filter (fun e => normalizeKey e.raw == k)).map locOf) := by
  induction es with
  | nil => intro idx k; simp
  | cons e es ih =>
    intro idx k
    rw [List.foldl_cons, ih, List.filter_cons]
    by_cases hk : normalizeKey e.raw = k
    · rw [if_pos (by simp [hk])]
      simp [insertLoc, hk]
    · rw [if_neg (by simp [hk])]
      have : insertLoc idx (normalizeKey e.raw) (locOf e) k = idx k := by
        unfold insertLoc
        rw [if_neg (fun hq => hk hq.symm)]
      rw [this]

theorem indexBook_eq (t : Str) (m : CipherMode) (k : Str) :
    indexBook t m k = ((bookEntries t).filter (fun e => normalizeKey e.raw == k)).map locOf := by
  unfold indexBook
  rw [foldl_insertLoc]
  simp [emptyIdx]

theorem mem_indexBook {t : Str} {m : CipherMode} {k : Str} {loc : BookLocation} :
    loc ∈ indexBook t m k ↔ ∃ e ∈ bookEntries t, normalizeKey e.raw = k ∧ loc = locOf e := by
  rw [indexBook_eq]
  simp only [List.mem_map, List.mem_filter, beq_iff_eq]
  constructor
  · rintro ⟨e, ⟨he, hk⟩, rfl⟩
    exact ⟨e, he, hk, rfl⟩
  · rintro ⟨e, he, hk, rfl⟩
    exact ⟨e, ⟨he, hk⟩, rfl⟩

theorem bookEntries_spec {t : Str} {e : BookEntry} (he : e ∈ bookEntries t) :
    ∃ para line,
      (paraSplit t)[e.para - 1]? = some para ∧ jsTrim para ≠ [] ∧ 1 ≤ e.para ∧
      (splitLines para)[e.line - 1]? = some line ∧ 1 ≤ e.line ∧
      (splitWs (jsTrim line))[e.word - 1]? = some e.raw ∧ 1 ≤ e.word ∧
      e.raw ≠ [] ∧ normalizeKey e.raw ≠ [] := by
  unfold bookEntries at he
  rw [mem_concatMap] at he
  obtain ⟨⟨pi, pv⟩, hpp, he⟩ := he
  by_cases hblank : jsTrim pv = []
  · rw [if_pos hblank] at he
    simp at he
  · rw [if_neg hblank] at he
    rw [mem_concatMap] at he
    obtain ⟨⟨li, lv⟩, hll, he⟩ := he
    rw [mem_concatMap] at he
    obtain ⟨⟨wi, wv⟩, hww, he⟩ := he
    by_cases hw0 : wv = []
    · rw [if_pos hw0] at he
      simp at he
    · rw [if_neg hw0] at he
      by_cases hk0 : normalizeKey wv = []
      · rw [if_pos hk0] at he
        simp at he
      · rw [if_neg hk0] at he
        simp only [List.mem_singleton] at he
        subst he
        obtain ⟨np, hnp, hip⟩ := idxFrom_mem hpp
        obtain ⟨nl, hnl, hil⟩ := idxFrom_mem hll
        obtain ⟨nw, hnw, hiw⟩ := idxFrom_mem hww
        have hpieq : pi = np := by omega
        have hlieq : li = nl := by omega
        have hwieq : wi = nw := by omega
        subst hpieq
        subst hlieq
        subst hwieq
        refine ⟨pv, lv, ?_, hblank, ?_, ?_, ?_, ?_, ?_, hw0, hk0⟩
        · show (paraSplit t)[pi + 1 - 1]? = some pv
          simpa using hnp
        · show 1 ≤ pi + 1
          omega
        · show (splitLines pv)[li + 1 - 1]? = some lv
          simpa using hnl
        · show 1 ≤ li + 1
          omega
        · show (splitWs (jsTrim lv))[wi + 1 - 1]? = some wv
          simpa using hnw
        · show 1 ≤ wi + 1
          omega

theorem bookEntries_resolve {t : Str} {e : BookEntry} (he : e ∈ bookEntries t) :
    resolveRaw t e.para e.line e.word = some e.raw := by
  obtain ⟨para, line, h1, h2, h3, h4, h5, h6, h7, h8, h9⟩ := bookEntries_spec he
  unfold resolveRaw
  simp only [h1, h4, h6]

/-! ## Decoding a formatted coordinate -/

theorem natToStr_no_colon (n : Nat) : ∀ c ∈ natToStr n, c ≠ ':' := by
  intro c hc h
  subst h
  have := natToStr_digits n ':' hc
  revert this
  decide

theorem natToStr_nonspace (n : Nat) : ∀ c ∈ natToStr n, isSpace c = false := fun c hc =>
  isSpace_false_of_digit (natToStr_digits n c hc).1 (natToStr_digits n c hc).2

theorem fmtPLW_eq (loc : BookLocation) : fmtPLW loc =
    (natToStr loc.paragraph ++ [':'] ++ natToStr loc.line ++ [':']) ++ natToStr loc.word := by
  unfold fmtPLW
  simp

theorem fmtPLW_ne_nil (loc : BookLocation) : fmtPLW loc ≠ [] := by
  rw [fmtPLW_eq]
  intro h
  rcases List.append_eq_nil.mp h with ⟨-, h2⟩
  exact natToStr_ne_nil _ h2

theorem fmtPLW_getLast (loc : BookLocation) :
    ∃ c, (fmtPLW loc).getLast? = some c ∧ 48 ≤ c.toNat ∧ c.toNat ≤ 57 := by
  obtain ⟨c, hc, hm⟩ := getLast?_of_ne_nil (natToStr_ne_nil loc.word)
  refine ⟨c, ?_, (natToStr_digits _ c hm).1, (natToStr_digits _ c hm).2⟩
  rw [fmtPLW_eq, List.getLast?_append_of_ne_nil _ (natToStr_ne_nil _)]
  exact hc

theorem fmtTok_getLast (mode : CipherMode) (dt : Str) (loc : BookLocation) :
    ∃ c, (fmtTok mode dt loc).getLast? = some c ∧ 48 ≤ c.toNat ∧ c.toNat ≤ 57 := by
  cases mode with
  | PLP => exact fmtPLW_getLast loc
  | DPLP =>
    obtain ⟨c, hc, h1, h2⟩ := fmtPLW_getLast loc
    refine ⟨c, ?_, h1, h2⟩
    show (dt ++ ':' :: fmtPLW loc).getLast? = some c
    have hre : dt ++ ':' :: fmtPLW loc = (dt ++ [':']) ++ fmtPLW loc := by simp
    rw [hre, List.getLast?_append_of_ne_nil _ (fmtPLW_ne_nil loc)]
    exact hc

theorem splitOn_fmtPLW (loc : BookLocation) :
    splitOn ':' (fmtPLW loc) =
      [natToStr loc.paragraph, natToStr loc.line, natToStr loc.word] := by
  have hshape : fmtPLW loc =
      natToStr loc.paragraph ++ ':' :: (natToStr loc.line ++ ':' :: natToStr loc.word) := by
    unfold fmtPLW
    simp
  rw [hshape]
  rw [splitOn_append (natToStr_no_colon loc.paragraph)]
  rw [splitOn_append (natToStr_no_colon loc.line)]
  rw [splitOn_no_sep (natToStr_no_colon loc.word)]

theorem decodeCore_some (paragraphs : List Str) (pa li wo : Int) :
    decodeCore paragraphs (some pa) (some li) (some wo) =
      if pa < 1 ∨ pa > (paragraphs.length : Int) then str "?"
      else if paragraphs.getD (pa - 1).toNat [] = [] then str "?"
      else if li < 1 ∨
          li > ((splitLines (paragraphs.getD (pa - 1).toNat [])).length : Int) then str "?"
      else if wo < 1 ∨
          wo > ((splitWs (jsTrim ((splitLines
            (paragraphs.getD (pa - 1).toNat [])).getD (li - 1).toNat []))).length : Int) then
        str "?"
      else jsToUpper (btrim ((splitWs (jsTrim ((splitLines
        (paragraphs.getD (pa - 1).toNat [])).getD (li - 1).toNat []))).getD (wo - 1).toNat [])) :=
  rfl

theorem decodeCore_coord {t : Str} {e : BookEntry} (he : e ∈ bookEntries t) :
    decodeCore (paraSplit t) (some (e.para : Int)) (some (e.line : Int)) (some (e.word : Int)) =
      jsToUpper (btrim e.raw) := by
  obtain ⟨para, line, h1, h2, h3, h4, h5, h6, h7, h8, h9⟩ := bookEntries_spec he
  have hplt : e.para - 1 < (paraSplit t).length := getElem?_lt h1
  have hllt : e.line - 1 < (splitLines para).length := getElem?_lt h4
  have hwlt : e.word - 1 < (splitWs (jsTrim line)).length := getElem?_lt h6
  rw [decodeCore_some]
  have htn1 : ((e.para : Int) - 1).toNat = e.para - 1 := by omega
  have htn2 : ((e.line : Int) - 1).toNat = e.line - 1 := by omega
  have htn3 : ((e.word : Int) - 1).toNat = e.word - 1 := by omega
  rw [htn1, htn2, htn3, getD_of_getElem? h1]
  rw [if_neg (by omega)]
  rw [if_neg (fun hp => h2 (by rw [hp]; rfl))]
  rw [getD_of_getElem? h4]
  rw [if_neg (by omega)]
  rw [if_neg (by omega)]
  rw [getD_of_getElem? h6]

theorem decodeTok_coord {t : Str} {e : BookEntry} (he : e ∈ bookEntries t)
    {mode : CipherMode} {dt : Str} (hdt : mode = CipherMode.DPLP → ∀ c ∈ dt, c ≠ ':') :
    decodeTok (paraSplit t) mode (fmtTok mode dt (locOf e)) = jsToUpper (btrim e.raw) := by
  obtain ⟨lc, hlc, hlc1, hlc2⟩ := fmtTok_getLast mode dt (locOf e)
  have hbr : ¬((fmtTok mode dt (locOf e)).head? = some '[' ∧
      (fmtTok mode dt (locOf e)).getLast? = some ']') := by
    rintro ⟨-, hend⟩
    rw [hlc] at hend
    injection hend with hend
    subst hend
    revert hlc2
    decide
  have hcol : ((fmtTok mode dt (locOf e)).any (fun c => c == ':')) = true := by
    rw [List.any_eq_true]
    refine ⟨':', ?_, by simp⟩
    cases mode with
    | PLP =>
      show ':' ∈ fmtPLW (locOf e)
      rw [fmtPLW_eq]
      simp
    | DPLP =>
      show ':' ∈ dt ++ ':' :: fmtPLW (locOf e)
      simp
  unfold decodeTok
  rw [if_neg hbr, if_neg (by rw [hcol]; simp)]
  cases mode with
  | PLP =>
    have hsp : splitOn ':' (fmtTok CipherMode.PLP dt (locOf e)) =
        [natToStr e.para, natToStr e.line, natToStr e.word] := by
      show splitOn ':' (fmtPLW (locOf e)) = _
      rw [splitOn_fmtPLW]
      rfl
    rw [hsp]
    show decodeCore (paraSplit t) (jsParseInt (natToStr e.para)) (jsParseInt (natToStr e.line))
      (jsParseInt (natToStr e.word)) = jsToUpper (btrim e.raw)
    rw [jsParseInt_natToStr, jsParseInt_natToStr, jsParseInt_natToStr]
    exact decodeCore_coord he
  | DPLP =>
    have hsp : splitOn ':' (fmtTok CipherMode.DPLP dt (locOf e)) =
        [dt, natToStr e.para, natToStr e.line, natToStr e.word] := by
      show splitOn ':' (dt ++ ':' :: fmtPLW (locOf e)) = _
      rw [splitOn_append (hdt rfl), splitOn_fmtPLW]
      rfl
    rw [hsp]
    show decodeCore (paraSplit t) (jsParseInt (natToStr e.para)) (jsParseInt (natToStr e.line))
      (jsParseInt (natToStr e.word)) = jsToUpper (btrim e.raw)
    rw [jsParseInt_natToStr, jsParseInt_natToStr, jsParseInt_natToStr]
    exact decodeCore_coord he

/-! ## Claim theorems: amended statements and remaining claims -/

/-- C4 (amended): the line splitter used by the Indexer and the Decoder
treats a carriage-return-line-feed pair and a bare line feed as the same
separator: inserting the break as CRLF or as LF after any prefix not itself
ending in a carriage return produces identical line lists.  A lone carriage
return, however, is not a line terminator (it stays inside the line as
ordinary whitespace), so replacing a lone CR by LF can change the built
index. -/
theorem c4_crlf_equiv (s t : Str) (h : s.getLast? ≠ some '\r') :
    splitLines (s ++ '\r' :: '\n' :: t) = splitLines (s ++ '\n' :: t) :=
  splitLines_crlf_aux s.length s t (le_refl _) h

/-- Witness for C4 at the concrete prefix "a" and suffix "b". -/
theorem c4_crlf_equiv_witness :
    (str "a").getLast? ≠ some '\r' ∧
    splitLines (str "a" ++ '\r' :: '\n' :: str "b") = splitLines (str "a" ++ '\n' :: str "b") :=
  ⟨by decide, c4_crlf_equiv (str "a") (str "b") (by decide)⟩

theorem jsTrim_noop_of_nonspace {s : Str} (h : ∀ c ∈ s, isSpace c = false) : jsTrim s = s :=
  jsTrim_noop (fun c hc => h c (List.mem_of_mem_head? hc))
    (fun c hc => h c (List.mem_of_mem_getLast? hc))

theorem fmtPLW_chars {loc : BookLocation} {c : Char} (hc : c ∈ fmtPLW loc) :
    c = ':' ∨ (48 ≤ c.toNat ∧ c.toNat ≤ 57) := by
  rw [fmtPLW_eq] at hc
  rcases List.mem_append.mp hc with h | h
  · rcases List.mem_append.mp h with h1 | h1
    · rcases List.mem_append.mp h1 with h2 | h2
      · rcases List.mem_append.mp h2 with h3 | h3
        · exact Or.inr (natToStr_digits _ c h3)
        · exact Or.inl (by simpa using h3)
      · exact Or.inr (natToStr_digits _ c h2)
    · exact Or.inl (by simpa using h1)
  · exact Or.inr (natToStr_digits _ c h)

theorem fmtTok_nonspace {mode : CipherMode} {dt : Str} {loc : BookLocation}
    (hdt : mode = CipherMode.DPLP → ∀ c ∈ dt, isSpace c = false) :
    ∀ c ∈ fmtTok mode dt loc, isSpace c = false := by
  intro c hc
  have hplw : c ∈ fmtPLW loc → isSpace c = false := by
    intro hm
    rcases fmtPLW_chars hm with rfl | ⟨h1, h2⟩
    · decide
    · exact isSpace_false_of_digit h1 h2
  cases mode with
  | PLP => exact hplw hc
  | DPLP =>
    have hmem : c ∈ dt ++ ':' :: fmtPLW loc := hc
    simp only [List.mem_append, List.mem_cons] at hmem
    rcases hmem with h | rfl | h
    · exact hdt rfl c h
    · decide
    · exact hplw h

theorem fmtTok_ne_nil (mode : CipherMode) (dt : Str) (loc : BookLocation) :
    fmtTok mode dt loc ≠ [] := by
  cases mode with
  | PLP => exact fmtPLW_ne_nil loc
  | DPLP =>
    show dt ++ ':' :: fmtPLW loc ≠ []
    simp

/-- C5 (amended): every BookLocation coordinate, when re-resolved against the
same book text and mode, yields the raw whitespace-delimited word found at
that position, boundary-trimmed and upper-cased — not the stored `content`,
which is the raw word with every non-word character removed and the original
case preserved. -/
theorem c5_resolve_amended (t : Str) (m : CipherMode) (k : Str) (loc : BookLocation)
    (h : loc ∈ indexBook t m k) :
    ∃ raw, resolveRaw t loc.paragraph loc.line loc.word = some raw ∧
      (decodeMessage (fmtTok m (str "DATA") loc) t m).text = jsToUpper (btrim raw) ∧
      loc.content = cleanContent raw := by
  obtain ⟨e, he, hk, rfl⟩ := mem_indexBook.mp h
  refine ⟨e.raw, bookEntries_resolve he, ?_, rfl⟩
  unfold decodeMessage
  have hns : ∀ c ∈ fmtTok m (str "DATA") (locOf e), isSpace c = false :=
    fmtTok_nonspace (fun _ => by decide)
  rw [jsTrim_noop_of_nonspace hns]
  rw [splitWs_nonspace (fmtTok_ne_nil m (str "DATA") (locOf e)) hns]
  show joinSep [' '] [decodeTok (paraSplit t) m (fmtTok m (str "DATA") (locOf e))] = _
  rw [decodeTok_coord he (fun _ => by decide)]
  rfl

/-- Witness for C5 at the book "ga-to" and its single indexed location. -/
theorem c5_resolve_amended_witness :
    (⟨1, 1, 1, str "gato"⟩ : BookLocation) ∈ indexBook (str "ga-to") CipherMode.PLP (str "gato") ∧
    (∃ raw, resolveRaw (str "ga-to") (⟨1, 1, 1, str "gato"⟩ : BookLocation).paragraph
        (⟨1, 1, 1, str "gato"⟩ : BookLocation).line
        (⟨1, 1, 1, str "gato"⟩ : BookLocation).word = some raw ∧
      (decodeMessage (fmtTok CipherMode.PLP (str "DATA") ⟨1, 1, 1, str "gato"⟩)
        (str "ga-to") CipherMode.PLP).text = jsToUpper (btrim raw) ∧
      (⟨1, 1, 1, str "gato"⟩ : BookLocation).content = cleanContent raw) :=
  ⟨by decide, c5_resolve_amended (str "ga-to") CipherMode.PLP (str "gato")
    ⟨1, 1, 1, str "gato"⟩ (by decide)⟩

/-- C7 (amended): a paragraph boundary is a line feed followed by optional
whitespace ending in another line feed; whitespace-only paragraphs contribute
nothing to the Index, but the discarded segments keep their ordinal slots:
every indexed location points, at its stored 1-based paragraph number, to a
non-blank segment of the raw paragraph split (so a book starting with blank
lines addresses its first non-blank paragraph as 2, not 1). -/
theorem c7_blank_paragraphs_amended (t : Str) (m : CipherMode) (k : Str) (loc : BookLocation)
    (h : loc ∈ indexBook t m k) :
    ∃ para, (paraSplit t)[loc.paragraph - 1]? = some para ∧ jsTrim para ≠ [] ∧
      1 ≤ loc.paragraph := by
  obtain ⟨e, he, hk, rfl⟩ := mem_indexBook.mp h
  obtain ⟨para, line, h1, h2, h3, h4, h5, h6, h7, h8, h9⟩ := bookEntries_spec he
  exact ⟨para, h1, h2, h3⟩

/-- Witness for C7 at the book beginning with a blank-line run. -/
theorem c7_blank_paragraphs_amended_witness :
    (⟨2, 1, 1, str "x"⟩ : BookLocation) ∈ indexBook (str "\n\nx") CipherMode.PLP (str "x") ∧
    (∃ para, (paraSplit (str "\n\nx"))[(⟨2, 1, 1, str "x"⟩ : BookLocation).paragraph - 1]? =
        some para ∧ jsTrim para ≠ [] ∧ 1 ≤ (⟨2, 1, 1, str "x"⟩ : BookLocation).paragraph) :=
  ⟨by decide, c7_blank_paragraphs_amended (str "\n\nx") CipherMode.PLP (str "x")
    ⟨2, 1, 1, str "x"⟩ (by decide)⟩

/-- C6 (amended): every message token whose normalized key is nonempty and
absent from the Index appears in `missingTokens` exactly once regardless of
repeats (tokens whose key is empty are passed through as plaintext and never
reported), and the success flag is true exactly when `missingTokens` is
empty. -/
theorem c6_missing_amended (M : Str) (idx : BookIndex) (mode : CipherMode) (d : Str)
    (choose : List BookLocation → BookLocation) :
    (∀ tok ∈ msgTokens M, normalizeKey tok ≠ [] → idx (normalizeKey tok) = [] →
      (encodeMessage M idx mode d choose).missingTokens.count tok = 1) ∧
    ((encodeMessage M idx mode d choose).success = true ↔
      (encodeMessage M idx mode d choose).missingTokens = []) := by
  constructor
  · intro tok hmem hk hidx
    have hpush : tok ∈ encodeMissingRaw idx mode d choose (msgTokens M) := by
      unfold encodeMissingRaw
      rw [mem_concatMap]
      refine ⟨tok, hmem, ?_⟩
      simp [encTok, hk, hidx]
    exact count_jsSetDedup_of_mem hpush
  · show ((encodeMissingRaw idx mode d choose (msgTokens M)).isEmpty = true) ↔
      jsSetDedup (encodeMissingRaw idx mode d choose (msgTokens M)) = []
    rw [List.isEmpty_iff, jsSetDedup_eq_nil_iff]

/-- Witness for C6 at the message "zz zz" and the empty index: the repeated
missing token is reported exactly once, and the failed call has a nonempty
missing list with success false. -/
theorem c6_missing_amended_witness :
    (encodeMessage (str "zz zz") emptyIdx CipherMode.PLP [] chooseHead).missingTokens.count
      (str "zz") = 1 :=
  (c6_missing_amended (str "zz zz") emptyIdx CipherMode.PLP [] chooseHead).1
    (str "zz") (by decide) (by decide) (by decide)

/-- C8 (amended): in the Paragraph-Line-Word and Date-Paragraph-Line-Word
encoder, a message token that normalizes to the empty key is passed through
to the emitted code list at its own position as the raw token — neither
bracket-wrapped nor recorded in `missingTokens`; the older Line-Word encoder
instead drops such tokens (see the counterexample). -/
theorem c8_empty_key_passthrough (idx : BookIndex) (mode : CipherMode) (d M : Str)
    (choose : List BookLocation → BookLocation) (i : Nat) (tok : Str)
    (hget : (msgTokens M)[i]? = some tok) (hkey : normalizeKey tok = []) :
    (encodeCodes idx mode d choose (msgTokens M))[i]? = some tok ∧
    tok ∉ (encodeMessage M idx mode d choose).missingTokens := by
  constructor
  · unfold encodeCodes
    rw [List.getElem?_map, hget]
    simp [encTok, hkey]
  · intro hmem
    have hraw : tok ∈ encodeMissingRaw idx mode d choose (msgTokens M) :=
      mem_jsSetDedup.mp hmem
    unfold encodeMissingRaw at hraw
    rw [mem_concatMap] at hraw
    obtain ⟨tok2, hmem2, hin⟩ := hraw
    by_cases hk2 : normalizeKey tok2 = []
    · simp [encTok, hk2] at hin
    · by_cases hi2 : idx (normalizeKey tok2) = []
      · simp [encTok, hk2, hi2] at hin
        subst hin
        exact hk2 hkey
      · simp [encTok, hk2, hi2] at hin

/-- Witness for C8 at the pure-punctuation token "!!!". -/
theorem c8_empty_key_passthrough_witness :
    (msgTokens (str "!!!"))[0]? = some (str "!!!") ∧ normalizeKey (str "!!!") = [] ∧
    ((encodeCodes emptyIdx CipherMode.PLP [] chooseHead (msgTokens (str "!!!")))[0]? =
        some (str "!!!") ∧
      str "!!!" ∉ (encodeMessage (str "!!!") emptyIdx CipherMode.PLP [] chooseHead).missingTokens) :=
  ⟨by decide, by decide,
    c8_empty_key_passthrough emptyIdx CipherMode.PLP [] (str "!!!") chooseHead 0 (str "!!!")
      (by decide) (by decide)⟩

/-- C9: in Date-Paragraph-Line-Word mode the encoder prefixes the trimmed
user tag to the coordinate, substituting the fixed placeholder "DATA" when
the trimmed tag is empty; the decoder parses and discards the leading date
field.  Concretely, on the book "O gato subiu no muro." encoding "gato" with
tag "2024" yields "2024:1:1:2", and decoding "2024:1:1:2" (or the same
coordinate under any other date) yields "GATO". -/
theorem c9_dplp_tag (d : Str) (idx : BookIndex) (choose : List BookLocation → BookLocation)
    (tok : Str) (hkey : normalizeKey tok ≠ []) (hfound : idx (normalizeKey tok) ≠ []) :
    (encTok idx CipherMode.DPLP d choose tok).1 =
      (if jsTrim d = [] then str "DATA" else jsTrim d) ++
        ':' :: fmtPLW (choose (idx (normalizeKey tok))) ∧
    (encodeMessage (str "gato") (indexBook gatoBook CipherMode.DPLP) CipherMode.DPLP
      (str "2024") chooseHead).text = str "2024:1:1:2" ∧
    (decodeMessage (str "2024:1:1:2") gatoBook CipherMode.DPLP).text = str "GATO" ∧
    (decodeMessage (str "9999:1:1:2") gatoBook CipherMode.DPLP).text = str "GATO" := by
  refine ⟨?_, by decide, by decide, by decide⟩
  simp [encTok, hkey, hfound, dTag, fmtTok]

/-- Witness for C9: the empty tag is replaced by the "DATA" placeholder. -/
theorem c9_dplp_tag_witness :
    (encTok (indexBook gatoBook CipherMode.DPLP) CipherMode.DPLP [] chooseHead (str "gato")).1 =
      (if jsTrim ([] : Str) = [] then str "DATA" else jsTrim ([] : Str)) ++
        ':' :: fmtPLW (chooseHead ((indexBook gatoBook CipherMode.DPLP)
          (normalizeKey (str "gato")))) ∧
    (encodeMessage (str "gato") (indexBook gatoBook CipherMode.DPLP) CipherMode.DPLP
      (str "2024") chooseHead).text = str "2024:1:1:2" ∧
    (decodeMessage (str "2024:1:1:2") gatoBook CipherMode.DPLP).text = str "GATO" ∧
    (decodeMessage (str "9999:1:1:2") gatoBook CipherMode.DPLP).text = str "GATO" :=
  c9_dplp_tag [] (indexBook gatoBook CipherMode.DPLP) chooseHead (str "gato")
    (by decide) (by decide)

/-! ## The round-trip theorem -/

theorem splitWs_trim_join2 {codes : List Str} (hne : codes ≠ [])
    (h : ∀ c ∈ codes, c ≠ [] ∧ ∀ ch ∈ c, isSpace ch = false) :
    splitWs (jsTrim (joinSep [' ', ' '] codes)) = codes := by
  have htrim : jsTrim (joinSep [' ', ' '] codes) = joinSep [' ', ' '] codes := by
    apply jsTrim_noop
    · intro c hc
      obtain ⟨c0, cs, rfl⟩ : ∃ c0 cs, codes = c0 :: cs := by
        cases codes with
        | nil => exact absurd rfl hne
        | cons c0 cs => exact ⟨c0, cs, rfl⟩
      rw [joinSep_head? (h c0 (by simp)).1] at hc
      exact (h c0 (by simp)).2 c (List.mem_of_mem_head? hc)
    · intro c hc
      obtain ⟨last, hlast, hlastmem⟩ := getLast?_of_ne_nil hne
      rw [joinSep_getLast? (fun x hx => (h x hx).1) hlast] at hc
      exact (h last hlastmem).2 c (List.mem_of_mem_getLast? hc)
  rw [htrim]
  exact splitWs_join2 hne h

theorem encTok_found {t tok d : Str} {mode : CipherMode}
    {choose : List BookLocation → BookLocation}
    (hch : ∀ l : List BookLocation, l ≠ [] → choose l ∈ l)
    (huniq : ∀ e1 ∈ bookEntries t, ∀ e2 ∈ bookEntries t,
      normalizeKey e1.raw = normalizeKey e2.raw → e1 = e2)
    (e : BookEntry) (he : e ∈ bookEntries t) (heraw : e.raw = tok) :
    (encTok (indexBook t mode) mode d choose tok).1 = fmtTok mode (dTag d) (locOf e) := by
  have hk : normalizeKey tok ≠ [] := by
    obtain ⟨para, line, h1, h2, h3, h4, h5, h6, h7, h8, h9⟩ := bookEntries_spec he
    rwa [heraw] at h9
  have hloc : locOf e ∈ indexBook t mode (normalizeKey tok) :=
    mem_indexBook.mpr ⟨e, he, by rw [heraw], rfl⟩
  have hidxne : indexBook t mode (normalizeKey tok) ≠ [] := by
    intro h0
    rw [h0] at hloc
    simp at hloc
  have hchoose : choose (indexBook t mode (normalizeKey tok)) = locOf e := by
    have hmem := hch _ hidxne
    obtain ⟨e2, he2, hk2, heq⟩ := mem_indexBook.mp hmem
    have he2e : e2 = e := huniq e2 he2 e he (by rw [hk2, heraw])
    rw [heq, he2e]
  simp [encTok, hk, hidxne, hchoose]

/-- C1: round-trip under no-homophony.  For a book in which no two indexed
word occurrences share a normalized key, any message whose whitespace tokens
all occur literally as words of the book encodes (under either
word-granularity mode, for every outcome of the random homophonic selection,
and for any date tag free of whitespace and colons) to coordinates whose
decoding reproduces the message up to case-folding and boundary-punctuation
trimming: the decoded text is exactly the message tokens boundary-trimmed
and upper-cased, joined by single spaces. -/
theorem c1_roundtrip (t M d : Str) (mode : CipherMode)
    (choose : List BookLocation → BookLocation)
    (hch : ∀ l : List BookLocation, l ≠ [] → choose l ∈ l)
    (huniq : ∀ e1 ∈ bookEntries t, ∀ e2 ∈ bookEntries t,
      normalizeKey e1.raw = normalizeKey e2.raw → e1 = e2)
    (hmsg : ∀ tok ∈ msgTokens M, ∃ e ∈ bookEntries t, e.raw = tok)
    (htag : mode = CipherMode.DPLP → ∀ c ∈ jsTrim d, isSpace c = false ∧ c ≠ ':') :
    (decodeMessage (encodeMessage M (indexBook t mode) mode d choose).text t mode).text =
      joinSep [' '] ((msgTokens M).map (fun tok => jsToUpper (btrim tok))) := by
  have hdt_ns : mode = CipherMode.DPLP → ∀ c ∈ dTag d, isSpace c = false := by
    intro hm c hc
    unfold dTag at hc
    split at hc
    · have hall : ∀ x ∈ str "DATA", isSpace x = false := by decide
      exact hall c hc
    · exact (htag hm c hc).1
  have hdt_nc : mode = CipherMode.DPLP → ∀ c ∈ dTag d, c ≠ ':' := by
    intro hm c hc
    unfold dTag at hc
    split at hc
    · have hall : ∀ x ∈ str "DATA", x ≠ ':' := by decide
      exact hall c hc
    · exact (htag hm c hc).2
  have hcode : ∀ tok ∈ msgTokens M, ∃ e ∈ bookEntries t, e.raw = tok ∧
      (encTok (indexBook t mode) mode d choose tok).1 = fmtTok mode (dTag d) (locOf e) := by
    intro tok hmem
    obtain ⟨e, he, heraw⟩ := hmsg tok hmem
    exact ⟨e, he, heraw, encTok_found hch huniq e he heraw⟩
  have hprop : ∀ c ∈ encodeCodes (indexBook t mode) mode d choose (msgTokens M),
      c ≠ [] ∧ ∀ ch ∈ c, isSpace ch = false := by
    intro c hc
    unfold encodeCodes at hc
    rw [List.mem_map] at hc
    obtain ⟨tok, htok, rfl⟩ := hc
    obtain ⟨e, he, heraw, hfmt⟩ := hcode tok htok
    rw [hfmt]
    exact ⟨fmtTok_ne_nil _ _ _, fmtTok_nonspace hdt_ns⟩
  have hne : encodeCodes (indexBook t mode) mode d choose (msgTokens M) ≠ [] := by
    unfold encodeCodes
    intro h0
    exact splitWs_ne_nil (jsTrim M) (List.map_eq_nil_iff.mp h0)
  show joinSep [' ']
      ((splitWs (jsTrim (joinSep [' ', ' '] (encodeCodes (indexBook t mode) mode d choose
        (msgTokens M))))).map (decodeTok (paraSplit t) mode)) = _
  rw [splitWs_trim_join2 hne hprop]
  congr 1
  unfold encodeCodes
  rw [List.map_map]
  apply List.map_eq_map_iff.mpr
  intro tok htok
  obtain ⟨e, he, heraw, hfmt⟩ := hcode tok htok
  show decodeTok (paraSplit t) mode ((encTok (indexBook t mode) mode d choose tok).1) =
    jsToUpper (btrim tok)
  rw [hfmt, decodeTok_coord he hdt_nc, heraw]

/-- Witness for C1: the book "O gato subiu no muro." has pairwise distinct
keys, and the message "gato subiu" round-trips to "GATO SUBIU" in
Paragraph-Line-Word mode. -/
theorem c1_roundtrip_witness :
    (∀ e1 ∈ bookEntries gatoBook, ∀ e2 ∈ bookEntries gatoBook,
      normalizeKey e1.raw = normalizeKey e2.raw → e1 = e2) ∧
    (∀ tok ∈ msgTokens (str "gato subiu"), ∃ e ∈ bookEntries gatoBook, e.raw = tok) ∧
    (decodeMessage (encodeMessage (str "gato subiu") (indexBook gatoBook CipherMode.PLP)
        CipherMode.PLP [] chooseHead).text gatoBook CipherMode.PLP).text =
      joinSep [' '] ((msgTokens (str "gato subiu")).map (fun tok => jsToUpper (btrim tok))) :=
  ⟨by decide, by decide,
    c1_roundtrip gatoBook (str "gato subiu") [] CipherMode.PLP chooseHead
      (fun l hl => by
        cases l with
        | nil => exact absurd rfl hl
        | cons x xs => exact List.mem_cons_self x xs)
      (by decide) (by decide)
      (fun hm => absurd hm (by decide))⟩
